import Mathlib

/-!
# Verification of the `bitops` bit-operations library

Shallow embedding of the `BitOps` trait from `src/lib.rs`.  The trait provides
four queries over any integer type `N : Copy + Integer + BitAnd + Shl + Shr + From<u8>`:

* `is_flag(&self) = *self > 0 && (*self & (*self - 1)) == 0`
* `is_bit_set(&self, bit: u8) = self.is_flag_set(1 << from(bit))`
* `is_flag_set(&self, flag) = *self & flag > 0`
* `bits_as_int(&self, bit: u8, count: u8) = (*self >> from(bit)) & ((1 << from(count)) - 1)`

The host (Rust, checked builds — the mode the crate's own `#[should_panic]`
test runs under) panics on a shift whose amount is `≥` the bit width of the
type and on an over/underflowing subtraction; a shift never panics on value
overflow, it discards high bits.  Panics are modelled as `none : Option _`.
We embed the unsigned `w`-bit instances over `Nat` (values `< 2^w`) and the
signed `w`-bit instances over `Int` (values in `[-2^(w-1), 2^(w-1))`, bitwise
AND via the two's-complement representation).  A separate `release` variant
of `is_bit_set` models the unchecked build, where the shift amount silently
wraps modulo the width.
-/

namespace BitOps

namespace U

/-- In-range predicate for an unsigned `w`-bit value. -/
def Valid (w v : Nat) : Prop := v < 2 ^ w

/-- Checked left shift on an unsigned `w`-bit value: Rust `<<` panics when the
shift amount is `≥ w`; otherwise high bits are discarded (value mod `2^w`). -/
def shlChecked (w x s : Nat) : Option Nat :=
  if s < w then some (x * 2 ^ s % 2 ^ w) else none

/-- Checked right shift on an unsigned `w`-bit value: panics when the shift
amount is `≥ w`; otherwise floor division by `2^s`. -/
def shrChecked (w x s : Nat) : Option Nat :=
  if s < w then some (x / 2 ^ s) else none

/-- Checked subtraction of one on an unsigned value: Rust `x - 1` panics on
underflow, i.e. exactly when `x = 0`. -/
def subOneChecked (x : Nat) : Option Nat :=
  if x = 0 then none else some (x - 1)

/-- `is_flag`: `*self > Self::zero() && (*self & (*self - Self::one())) == Self::zero()`.
The `&&` short-circuits, so the subtraction is evaluated only when `0 < v`. -/
def is_flag (v : Nat) : Option Bool :=
  if 0 < v then
    (subOneChecked v).map (fun p => decide (v &&& p = 0))
  else
    some false

/-- `is_flag_set`: `*self & flag > Self::zero()`. -/
def is_flag_set (v flag : Nat) : Bool := decide (0 < v &&& flag)

/-- `is_bit_set`: `self.is_flag_set(Self::one() << Self::from(bit))`.
The conversion `Self::from(bit)` is lossless for every implementing type. -/
def is_bit_set (w v bit : Nat) : Option Bool :=
  (shlChecked w 1 bit).map (fun m => is_flag_set v m)

/-- `is_bit_set` under release (unchecked) host semantics: the shift amount of
`Self::one() << Self::from(bit)` wraps modulo the bit width instead of
panicking; the implementation itself contains no range check. -/
def is_bit_set_release (w v bit : Nat) : Bool :=
  is_flag_set v (1 * 2 ^ (bit % w) % 2 ^ w)

/-- `bits_as_int`: `(*self >> Self::from(bit)) & ((Self::one() << Self::from(count)) - Self::one())`. -/
def bits_as_int (w v bit count : Nat) : Option Nat := do
  let x ← shrChecked w v bit
  let m ← shlChecked w 1 count
  let m' ← subOneChecked m
  pure (x &&& m')

end U

namespace S

/-- In-range predicate for a signed `w`-bit value (two's complement). -/
def InRange (w : Nat) (v : Int) : Prop :=
  -(2 ^ (w - 1) : Int) ≤ v ∧ v < 2 ^ (w - 1)

/-- Two's-complement representation of a signed `w`-bit value as a natural
number `< 2^w`. -/
def toRep (w : Nat) (v : Int) : Nat := (v % (2 ^ w : Int)).toNat

/-- Signed value denoted by a `w`-bit representation. -/
def ofRep (w : Nat) (n : Nat) : Int :=
  if n < 2 ^ (w - 1) then (n : Int) else (n : Int) - 2 ^ w

/-- Bitwise AND of two signed `w`-bit values, computed on the two's-complement
representations (exactly what the hardware `&` of the Rust type does). -/
def land (w : Nat) (a b : Int) : Int :=
  ofRep w (toRep w a &&& toRep w b)

/-- Checked signed subtraction: Rust `a - b` panics when the mathematical
result leaves the `w`-bit signed range. -/
def subChecked (w : Nat) (a b : Int) : Option Int :=
  if -(2 ^ (w - 1) : Int) ≤ a - b ∧ a - b < 2 ^ (w - 1) then some (a - b) else none

/-- Checked signed left shift: panics when the shift amount is negative or
`≥ w`; otherwise the bits are shifted and reinterpreted (value overflow is not
checked: `1i16 << 15` yields `i16::MIN` without panicking). -/
def shlChecked (w : Nat) (x s : Int) : Option Int :=
  if 0 ≤ s ∧ s < (w : Int) then some (ofRep w (toRep w x * 2 ^ s.toNat % 2 ^ w)) else none

/-- `is_flag` for a signed `w`-bit value; the `&&` short-circuits, so the
subtraction is evaluated only when `0 < v`. -/
def is_flag (w : Nat) (v : Int) : Option Bool :=
  if 0 < v then
    (subChecked w v 1).map (fun p => decide (land w v p = 0))
  else
    some false

/-- `is_flag_set` for a signed `w`-bit value: `*self & flag > 0`. -/
def is_flag_set (w : Nat) (v flag : Int) : Bool := decide (0 < land w v flag)

/-- `is_bit_set` for a signed `w`-bit value. -/
def is_bit_set (w : Nat) (v : Int) (bit : Nat) : Option Bool :=
  (shlChecked w 1 (bit : Int)).map (fun m => is_flag_set w v m)

end S

/-! ## Bitwise arithmetic lemmas -/

/-- A bitwise AND is positive exactly when the operands share a set bit. -/
theorem land_pos_iff (a b : Nat) :
    0 < a &&& b ↔ ∃ i, a.testBit i = true ∧ b.testBit i = true := by
  constructor
  · intro h
    obtain ⟨i, hi⟩ := Nat.ne_zero_implies_bit_true (x := a &&& b) (by omega)
    rw [Nat.testBit_and] at hi
    exact ⟨i, by simpa using hi⟩
  · rintro ⟨i, ha, hb⟩
    have hbit : (a &&& b).testBit i = true := by
      rw [Nat.testBit_and, ha, hb]; rfl
    have hge := Nat.testBit_implies_ge hbit
    have hpos := Nat.two_pow_pos i
    omega

/-- A positive natural number `n` satisfies `n &&& (n - 1) = 0` exactly when it
is a power of two. -/
theorem and_pred_eq_zero_iff :
    ∀ n : Nat, 0 < n → (n &&& (n - 1) = 0 ↔ ∃ k : Nat, n = 2 ^ k) := by
  intro n
  induction n using Nat.strong_induction_on with
  | _ n ih =>
    intro hn
    have hmod : (n &&& (n - 1)) % 2 = 0 := by
      have h1 : ¬((n &&& (n - 1)) % 2 = 1) := by
        rw [Nat.and_mod_two_eq_one]; omega
      omega
    rcases Nat.even_or_odd n with he | ho
    · obtain ⟨m, hm⟩ := he
      have hm1 : 0 < m := by omega
      have hdiv : (n &&& (n - 1)) / 2 = m &&& (m - 1) := by
        rw [Nat.and_div_two]
        have h2 : n / 2 = m := by omega
        have h3 : (n - 1) / 2 = m - 1 := by omega
        rw [h2, h3]
      constructor
      · intro h0
        have hm0 : m &&& (m - 1) = 0 := by omega
        obtain ⟨k, hk⟩ := (ih m (by omega) hm1).mp hm0
        exact ⟨k + 1, by rw [pow_succ]; omega⟩
      · rintro ⟨k, hk⟩
        have hk0 : k ≠ 0 := by
          rintro rfl
          simp only [pow_zero] at hk
          omega
        obtain ⟨j, rfl⟩ := Nat.exists_eq_succ_of_ne_zero hk0
        have hmk : m = 2 ^ j := by
          rw [pow_succ] at hk; omega
        have hm0 := (ih m (by omega) hm1).mpr ⟨j, hmk⟩
        omega
    · obtain ⟨m, hm⟩ := ho
      have hdiv : (n &&& (n - 1)) / 2 = m := by
        rw [Nat.and_div_two]
        have h2 : n / 2 = m := by omega
        have h3 : (n - 1) / 2 = m := by omega
        rw [h2, h3, Nat.and_self]
      constructor
      · intro h0
        refine ⟨0, ?_⟩
        rw [pow_zero]
        omega
      · rintro ⟨k, hk⟩
        rcases k with _ | j
        · rw [pow_zero] at hk
          omega
        · rw [pow_succ] at hk
          omega

/-- The top bit of a number below `2^(k+1)` is set exactly when the number is
at least `2^k`. -/
theorem testBit_high_iff {k a : Nat} (ha : a < 2 ^ (k + 1)) :
    a.testBit k = true ↔ 2 ^ k ≤ a := by
  constructor
  · exact Nat.testBit_implies_ge
  · intro h
    rw [Nat.testBit_to_div_mod]
    have h1 : 1 ≤ a / 2 ^ k := (Nat.le_div_iff_mul_le (Nat.two_pow_pos k)).mpr (by omega)
    have h2 : a / 2 ^ k < 2 := by
      rw [Nat.div_lt_iff_lt_mul (Nat.two_pow_pos k)]
      have : 2 ^ (k + 1) = 2 ^ k * 2 := pow_succ 2 k
      omega
    have h3 : a / 2 ^ k = 1 := by omega
    rw [h3]
    rfl

/-- An AND of two numbers below `2^(k+1)` reaches `2^k` exactly when both
operands do. -/
theorem and_high_iff {k a b : Nat} (ha : a < 2 ^ (k + 1)) (hb : b < 2 ^ (k + 1)) :
    2 ^ k ≤ a &&& b ↔ 2 ^ k ≤ a ∧ 2 ^ k ≤ b := by
  have hab : a &&& b < 2 ^ (k + 1) := lt_of_le_of_lt Nat.and_le_left ha
  rw [← testBit_high_iff hab, ← testBit_high_iff ha, ← testBit_high_iff hb,
    Nat.testBit_and, Bool.and_eq_true]

/-! ## Two's-complement representation lemmas -/

theorem cast_two_pow (w : Nat) : ((2 ^ w : Nat) : Int) = (2 : Int) ^ w := by
  push_cast
  ring

theorem two_pow_split {w : Nat} (hw : 1 ≤ w) : (2 : Int) ^ w = 2 * 2 ^ (w - 1) := by
  have h : w - 1 + 1 = w := by omega
  calc (2 : Int) ^ w = 2 ^ (w - 1 + 1) := by rw [h]
    _ = 2 * 2 ^ (w - 1) := by rw [pow_succ]; ring

theorem two_pow_split_nat {w : Nat} (hw : 1 ≤ w) : 2 ^ w = 2 * 2 ^ (w - 1) := by
  have h : w - 1 + 1 = w := by omega
  calc 2 ^ w = 2 ^ (w - 1 + 1) := by rw [h]
    _ = 2 * 2 ^ (w - 1) := by rw [pow_succ]; ring

theorem toRep_lt (w : Nat) (v : Int) : S.toRep w v < 2 ^ w := by
  unfold S.toRep
  have h2 : (0 : Int) < 2 ^ w := by positivity
  have h3 := Int.emod_nonneg v (ne_of_gt h2)
  have h4 := Int.emod_lt_of_pos v h2
  have h5 := cast_two_pow w
  omega

theorem toRep_of_nonneg {w : Nat} {v : Int} (h0 : 0 ≤ v) (hlt : v < (2 : Int) ^ w) :
    (S.toRep w v : Int) = v := by
  unfold S.toRep
  rw [Int.emod_eq_of_lt h0 hlt]
  exact Int.toNat_of_nonneg h0

theorem toRep_of_neg {w : Nat} {v : Int} (h0 : v < 0) (hge : -(2 : Int) ^ w ≤ v) :
    (S.toRep w v : Int) = v + 2 ^ w := by
  unfold S.toRep
  have hp : (0 : Int) < 2 ^ w := by positivity
  have h2 := Int.add_mul_emod_self_left v ((2 : Int) ^ w) 1
  rw [mul_one] at h2
  have h1 : v % (2 : Int) ^ w = v + 2 ^ w := by
    rw [← h2, Int.emod_eq_of_lt (by omega) (by omega)]
  rw [h1]
  exact Int.toNat_of_nonneg (by omega)

theorem toRep_high_iff {w : Nat} {v : Int} (hw : 1 ≤ w) (hv : S.InRange w v) :
    2 ^ (w - 1) ≤ S.toRep w v ↔ v < 0 := by
  obtain ⟨hlo, hhi⟩ := hv
  have hpos : (0 : Int) < 2 ^ (w - 1) := by positivity
  have hsplit := two_pow_split hw
  have hcast := cast_two_pow (w - 1)
  rcases lt_or_le v 0 with hneg | hnn
  · have h1 := toRep_of_neg (w := w) hneg (by omega)
    omega
  · have h1 := toRep_of_nonneg (w := w) hnn (by omega)
    omega

theorem ofRep_of_lt {w n : Nat} (h : n < 2 ^ (w - 1)) : S.ofRep w n = (n : Int) := by
  unfold S.ofRep
  rw [if_pos h]

theorem ofRep_of_ge {w n : Nat} (h : 2 ^ (w - 1) ≤ n) :
    S.ofRep w n = (n : Int) - 2 ^ w := by
  unfold S.ofRep
  rw [if_neg (by omega)]

theorem ofRep_neg_iff {w n : Nat} (hn : n < 2 ^ w) :
    S.ofRep w n < 0 ↔ 2 ^ (w - 1) ≤ n := by
  unfold S.ofRep
  have hcast := cast_two_pow w
  split <;> rename_i h <;> omega

theorem land_of_nonneg {w : Nat} {a b : Int} (hw : 1 ≤ w) (ha0 : 0 ≤ a) (hb0 : 0 ≤ b)
    (ha : a < (2 : Int) ^ (w - 1)) (hb : b < (2 : Int) ^ w) :
    S.land w a b = ((a.toNat &&& b.toNat : Nat) : Int) := by
  unfold S.land
  have hsplit := two_pow_split hw
  have hA := cast_two_pow (w - 1)
  have hpos : (0 : Int) < 2 ^ (w - 1) := by positivity
  have h1 : (S.toRep w a : Int) = a := toRep_of_nonneg ha0 (by omega)
  have h2 : (S.toRep w b : Int) = b := toRep_of_nonneg hb0 hb
  have h3 : S.toRep w a = a.toNat := by omega
  have h4 : S.toRep w b = b.toNat := by omega
  rw [h3, h4]
  have h5 : a.toNat &&& b.toNat < 2 ^ (w - 1) := by
    have h6 : a.toNat &&& b.toNat ≤ a.toNat := Nat.and_le_left
    omega
  rw [ofRep_of_lt h5]

/-! ## Evaluation lemmas for the unsigned operations -/

theorem shrChecked_of_lt {w v bit : Nat} (hb : bit < w) :
    U.shrChecked w v bit = some (v / 2 ^ bit) := by
  unfold U.shrChecked
  rw [if_pos hb]

theorem shlChecked_one_of_lt {w count : Nat} (hc : count < w) :
    U.shlChecked w 1 count = some (2 ^ count) := by
  have hcount : (2 : Nat) ^ count < 2 ^ w := Nat.pow_lt_pow_right (by omega) hc
  unfold U.shlChecked
  rw [if_pos hc, one_mul, Nat.mod_eq_of_lt hcount]

/-- `bits_as_int` never faults when both arguments are below the bit width, and
computes the shift-and-mask formula. -/
theorem bits_as_int_eval {w v bit count : Nat} (hb : bit < w) (hc : count < w) :
    U.bits_as_int w v bit count = some (v / 2 ^ bit &&& (2 ^ count - 1)) := by
  have hpos := Nat.two_pow_pos count
  unfold U.bits_as_int
  rw [shrChecked_of_lt hb, shlChecked_one_of_lt hc]
  have hsub : U.subOneChecked (2 ^ count) = some (2 ^ count - 1) := by
    unfold U.subOneChecked
    rw [if_neg (by omega)]
  simp [hsub]

theorem bits_as_int_none_of_bit_ge {w v bit count : Nat} (hb : w ≤ bit) :
    U.bits_as_int w v bit count = none := by
  unfold U.bits_as_int U.shrChecked
  rw [if_neg (by omega)]
  rfl

theorem bits_as_int_none_of_count_ge {w v bit count : Nat} (hc : w ≤ count) :
    U.bits_as_int w v bit count = none := by
  unfold U.bits_as_int
  rcases Nat.lt_or_ge bit w with hb | hb
  · rw [shrChecked_of_lt hb]
    unfold U.shlChecked
    rw [if_neg (by omega)]
    rfl
  · unfold U.shrChecked
    rw [if_neg (by omega)]
    rfl

/-! ## Claim theorems: unsigned instances -/

/-- C2: `is_flag_set v mask` returns true iff `v &&& mask` is strictly greater
than zero, equivalently iff `v` and `mask` share at least one set bit, and an
all-zero mask is never set. -/
theorem is_flag_set_spec (v mask : Nat) :
    (U.is_flag_set v mask = true ↔ 0 < v &&& mask)
    ∧ (U.is_flag_set v mask = true ↔ ∃ i, v.testBit i = true ∧ mask.testBit i = true)
    ∧ U.is_flag_set v 0 = false := by
  refine ⟨?_, ?_, ?_⟩
  · unfold U.is_flag_set
    rw [decide_eq_true_eq]
  · unfold U.is_flag_set
    rw [decide_eq_true_eq]
    exact land_pos_iff v mask
  · unfold U.is_flag_set
    simp

/-- C3: for an in-range `start_bit` and `count`, `bits_as_int v start_bit count`
equals `(v >> start_bit) & ((1 << count) - 1)`, the `count` least-significant
bits of `v` starting at `start_bit`; a zero `count` yields zero; and
`bits_as_int 0xABCD 0 8 = 0xCD`. -/
theorem bits_as_int_spec (w v bit count : Nat) (hv : U.Valid w v) (hb : bit < w)
    (hc : count < w) :
    U.bits_as_int w v bit count = some (v >>> bit &&& (2 ^ count - 1))
    ∧ U.bits_as_int w v bit count = some (v / 2 ^ bit % 2 ^ count)
    ∧ (count = 0 → U.bits_as_int w v bit count = some 0)
    ∧ U.bits_as_int 16 0xABCD 0 8 = some 0xCD := by
  have h1 := bits_as_int_eval (v := v) hb hc
  refine ⟨?_, ?_, ?_, ?_⟩
  · rw [h1, Nat.shiftRight_eq_div_pow]
  · rw [h1, Nat.and_pow_two_sub_one_eq_mod]
  · intro h0
    subst h0
    rw [h1]
    simp
  · rw [bits_as_int_eval (w := 16) (v := 0xABCD) (by omega) (by omega)]
    rfl

/-- Witness for C3 at the spec's concrete scenario. -/
theorem bits_as_int_spec_witness :
    U.Valid 16 0xABCD ∧ U.bits_as_int 16 0xABCD 0 8 = some 0xCD :=
  ⟨by unfold U.Valid; decide,
   (bits_as_int_spec 16 0xABCD 0 8 (by unfold U.Valid; decide) (by decide) (by decide)).2.2.2⟩

/-- C4 counterexample: on the 16-bit type, extracting with `count` equal to the
full bit width faults (the mask shift `1 << 16` is out of range), so
`bits_as_int 0xABCD 0 16` is `none`, not `some 0xABCD` as the claim requires. -/
theorem bits_as_int_full_width_cex :
    U.bits_as_int 16 0xABCD 0 16 ≠ some 0xABCD := by
  rw [bits_as_int_none_of_count_ge (by omega)]
  simp

/-- C4 amended: `bits_as_int v 0 count` returns the low `count` bits of `v`
(`v mod 2^count`) for every `count` strictly below the bit width — equal to `v`
exactly when `v` fits in `count` bits — while `count` equal to the full width
faults because the mask shift `1 << width` is itself out of range. -/
theorem bits_as_int_low_bits (w v count : Nat) (hv : U.Valid w v) (hc : count < w) :
    U.bits_as_int w v 0 count = some (v % 2 ^ count)
    ∧ (v < 2 ^ count → U.bits_as_int w v 0 count = some v)
    ∧ U.bits_as_int w v 0 w = none := by
  have h1 := bits_as_int_eval (v := v) (show 0 < w by omega) hc
  rw [pow_zero, Nat.div_one] at h1
  refine ⟨?_, ?_, bits_as_int_none_of_count_ge (Nat.le_refl w)⟩
  · rw [h1, Nat.and_pow_two_sub_one_eq_mod]
  · intro hlt
    rw [h1, Nat.and_pow_two_sub_one_eq_mod, Nat.mod_eq_of_lt hlt]

/-- Witness for the amended C4. -/
theorem bits_as_int_low_bits_witness :
    U.bits_as_int 16 0xCD 0 8 = some 0xCD :=
  (bits_as_int_low_bits 16 0xCD 8 (by unfold U.Valid; decide) (by decide)).2.1 (by decide)

/-- C5 counterexample: the out-of-range fault of `is_bit_set` is not produced by
an explicit range check in the implementation — it is the host shift's own
overflow behavior.  Under checked shift semantics `is_bit_set 1 16` on the
16-bit type faults, but the same source under wrapping (release) shift
semantics silently wraps the shift amount to 0 and returns `true`. -/
theorem is_bit_set_no_explicit_check_cex :
    U.is_bit_set 16 1 16 = none ∧ U.is_bit_set_release 16 1 16 = true := by
  constructor
  · unfold U.is_bit_set U.shlChecked
    rw [if_neg (by omega)]
    rfl
  · decide

/-- C5 amended: `is_bit_set v bit` faults for `bit ≥ width` because the shift
`1 << bit` itself overflows under the checked host semantics; the
implementation contains no explicit range check, so under wrapping (release)
shift semantics the shift amount silently wraps and the call computes
`is_bit_set v (bit mod width)` instead of faulting. -/
theorem is_bit_set_out_of_range_spec (w v bit : Nat) (hw : 0 < w) :
    (w ≤ bit → U.is_bit_set w v bit = none)
    ∧ U.is_bit_set w v (bit % w) = some (U.is_bit_set_release w v bit) := by
  constructor
  · intro hb
    unfold U.is_bit_set U.shlChecked
    rw [if_neg (by omega)]
    rfl
  · unfold U.is_bit_set U.is_bit_set_release U.shlChecked
    rw [if_pos (Nat.mod_lt bit hw)]
    rfl

/-- Witness for the amended C5. -/
theorem is_bit_set_out_of_range_witness :
    (16 ≤ 16 → U.is_bit_set 16 1 16 = none)
    ∧ U.is_bit_set 16 1 (16 % 16) = some (U.is_bit_set_release 16 1 16) :=
  is_bit_set_out_of_range_spec 16 1 16 (by decide)

/-- C6: `bits_as_int` faults with the out-of-range fault whenever `start_bit`
or `count` reaches the bit width, and in particular `bits_as_int 0 16 0` on the
16-bit type faults — matching the crate's own `#[should_panic]` test. -/
theorem bits_as_int_fault_spec (w v bit count : Nat) (hv : U.Valid w v) :
    (w ≤ bit → U.bits_as_int w v bit count = none)
    ∧ (w ≤ count → U.bits_as_int w v bit count = none)
    ∧ U.bits_as_int 16 0 16 0 = none :=
  ⟨fun hb => bits_as_int_none_of_bit_ge hb,
   fun hc => bits_as_int_none_of_count_ge hc,
   bits_as_int_none_of_bit_ge (by omega)⟩

/-- Witness for C6 at the crate's `bits_overflow` test input. -/
theorem bits_as_int_fault_witness :
    U.Valid 16 0 ∧ U.bits_as_int 16 0 16 0 = none :=
  ⟨by unfold U.Valid; decide,
   (bits_as_int_fault_spec 16 0 16 0 (by unfold U.Valid; decide)).2.2⟩

/-- C7 counterexample: `bits_as_int v start 0` is *not* zero for every `start`:
with `start` equal to the bit width the right shift is out of range and the
call faults — the crate's own `bits_overflow` test demands exactly this. -/
theorem bits_as_int_count_zero_cex :
    U.bits_as_int 16 0 16 0 ≠ some 0 := by
  rw [bits_as_int_none_of_bit_ge (by omega)]
  simp

/-- C7 amended: `bits_as_int v start 0` returns zero for every `start` strictly
below the bit width (for `start ≥ width` it faults). -/
theorem bits_as_int_count_zero_amended (w v bit : Nat) (hb : bit < w) :
    U.bits_as_int w v bit 0 = some 0 := by
  have h1 := bits_as_int_eval (v := v) hb (show 0 < w by omega)
  rw [h1]
  simp

/-- Witness for the amended C7. -/
theorem bits_as_int_count_zero_witness :
    U.bits_as_int 16 0xABCD 4 0 = some 0 :=
  bits_as_int_count_zero_amended 16 0xABCD 4 (by decide)

/-- C8: for every in-range `bit`, `is_bit_set v bit` returns exactly
`is_flag_set v (1 <<< bit)`. -/
theorem is_bit_set_eq_flag_shift (w v bit : Nat) (hb : bit < w) :
    U.is_bit_set w v bit = some (U.is_flag_set v (2 ^ bit)) := by
  unfold U.is_bit_set
  rw [shlChecked_one_of_lt hb]
  rfl

/-- Witness for C8 at the spec's concrete scenario (`flag = 0b1000`, bit 3). -/
theorem is_bit_set_eq_flag_shift_witness :
    U.is_bit_set 16 8 3 = some (U.is_flag_set 8 (2 ^ 3)) :=
  is_bit_set_eq_flag_shift 16 8 3 (by decide)

/-! ## Claim theorems: signed instances -/

/-- C1: `is_flag v` never faults and returns true exactly when `v` is strictly
positive with exactly one bit set, i.e. a power of two; in particular it is
false for `v = 0`, for every `v ≤ 0`, and for every value with two or more set
bits. -/
theorem is_flag_spec (w : Nat) (v : Int) (hw : 1 ≤ w) (hv : S.InRange w v) :
    (S.is_flag w v).isSome = true
    ∧ (S.is_flag w v = some true ↔ 0 < v ∧ ∃ k : Nat, v = (2 : Int) ^ k) := by
  obtain ⟨hlo, hhi⟩ := hv
  have hpos : (0 : Int) < 2 ^ (w - 1) := by positivity
  have hsplit := two_pow_split hw
  by_cases h0 : 0 < v
  · have hsub : S.subChecked w v 1 = some (v - 1) := by
      unfold S.subChecked
      rw [if_pos]
      exact ⟨by omega, by omega⟩
    have hb : v - 1 < (2 : Int) ^ w := by omega
    have hland := land_of_nonneg hw (le_of_lt h0) (show (0 : Int) ≤ v - 1 by omega) hhi hb
    have htn : (v - 1).toNat = v.toNat - 1 := by omega
    have hflag : S.is_flag w v = some (decide (S.land w v (v - 1) = 0)) := by
      unfold S.is_flag
      rw [if_pos h0, hsub]
      rfl
    have hn0 : 0 < v.toNat := by omega
    refine ⟨by rw [hflag]; rfl, ?_⟩
    rw [hflag]
    constructor
    · intro h
      simp only [Option.some.injEq] at h
      rw [decide_eq_true_eq] at h
      rw [hland, htn] at h
      have hand : v.toNat &&& (v.toNat - 1) = 0 := by exact_mod_cast h
      obtain ⟨k, hk⟩ := (and_pred_eq_zero_iff v.toNat hn0).mp hand
      refine ⟨h0, k, ?_⟩
      have hv' : (v.toNat : Int) = v := Int.toNat_of_nonneg (le_of_lt h0)
      rw [← hv', hk]
      push_cast
      ring
    · rintro ⟨-, k, hk⟩
      have hck : ((2 : Int) ^ k) = ((2 ^ k : Nat) : Int) := by push_cast; ring
      have hnk : v.toNat = 2 ^ k := by
        rw [hck] at hk
        omega
      have hand : v.toNat &&& (v.toNat - 1) = 0 :=
        (and_pred_eq_zero_iff v.toNat hn0).mpr ⟨k, hnk⟩
      have hz : S.land w v (v - 1) = 0 := by
        rw [hland, htn, hand]
        rfl
      rw [hz]
      simp
  · have hflag : S.is_flag w v = some false := by
      unfold S.is_flag
      rw [if_neg h0]
    refine ⟨by rw [hflag]; rfl, ?_⟩
    rw [hflag]
    simp [h0]

/-- Witness for C1 with the spec's concrete flag `0b1000` on the 16-bit type. -/
theorem is_flag_spec_witness :
    (S.is_flag 16 8).isSome = true
    ∧ (S.is_flag 16 8 = some true ↔ 0 < (8 : Int) ∧ ∃ k : Nat, (8 : Int) = 2 ^ k) :=
  is_flag_spec 16 8 (by decide) (by unfold S.InRange; decide)

/-- C9: `is_flag` is total over the whole signed range: it never faults, not
even at the type's minimum value, because the `&&` short-circuits and the
subtraction `v - 1` is only evaluated when `v > 0`. -/
theorem is_flag_total_spec (w : Nat) (v : Int) (hw : 1 ≤ w) (hv : S.InRange w v) :
    (∃ b : Bool, S.is_flag w v = some b)
    ∧ S.is_flag w (-(2 ^ (w - 1) : Int)) = some false := by
  obtain ⟨hlo, hhi⟩ := hv
  have hpos : (0 : Int) < 2 ^ (w - 1) := by positivity
  constructor
  · by_cases h0 : 0 < v
    · have hsub : S.subChecked w v 1 = some (v - 1) := by
        unfold S.subChecked
        rw [if_pos]
        exact ⟨by omega, by omega⟩
      refine ⟨decide (S.land w v (v - 1) = 0), ?_⟩
      unfold S.is_flag
      rw [if_pos h0, hsub]
      rfl
    · refine ⟨false, ?_⟩
      unfold S.is_flag
      rw [if_neg h0]
  · unfold S.is_flag
    rw [if_neg (by omega)]

/-- Witness for C9 at the 16-bit minimum value. -/
theorem is_flag_total_witness :
    (∃ b : Bool, S.is_flag 16 (-32768) = some b)
    ∧ S.is_flag 16 (-(2 ^ (16 - 1) : Int)) = some false :=
  is_flag_total_spec 16 (-32768) (by decide) (by unfold S.InRange; decide)

/-- C10: on a signed type, `is_flag_set v m` is false whenever `v &&& m` is
negative, which happens exactly when `v` and `m` both have the sign bit set;
consequently `is_bit_set v (width - 1)` is false for every signed `v`, so the
top (sign) bit can never be observed as set through these operations. -/
theorem signed_top_bit_spec (w : Nat) (v m : Int) (hw : 1 ≤ w)
    (hv : S.InRange w v) (hm : S.InRange w m) :
    (S.land w v m < 0 ↔ v < 0 ∧ m < 0)
    ∧ (S.land w v m < 0 → S.is_flag_set w v m = false)
    ∧ S.is_bit_set w v (w - 1) = some false := by
  have hpos : (0 : Int) < 2 ^ (w - 1) := by positivity
  have hposN : (0 : Nat) < 2 ^ (w - 1) := Nat.two_pow_pos (w - 1)
  have hsplit := two_pow_split hw
  have hsplitN := two_pow_split_nat hw
  have hcast := cast_two_pow (w - 1)
  have hww : w - 1 + 1 = w := by omega
  have hiff : S.land w v m < 0 ↔ v < 0 ∧ m < 0 := by
    unfold S.land
    have h1 := toRep_lt w v
    have h2 := toRep_lt w m
    have h1' : S.toRep w v < 2 ^ (w - 1 + 1) := by rw [hww]; exact h1
    have h2' : S.toRep w m < 2 ^ (w - 1 + 1) := by rw [hww]; exact h2
    have hand : S.toRep w v &&& S.toRep w m < 2 ^ w :=
      lt_of_le_of_lt Nat.and_le_left h1
    rw [ofRep_neg_iff hand, and_high_iff h1' h2',
      toRep_high_iff hw hv, toRep_high_iff hw hm]
  refine ⟨hiff, ?_, ?_⟩
  · intro hneg
    unfold S.is_flag_set
    simp only [decide_eq_false_iff_not]
    omega
  · have hmin : S.toRep w (-(2 : Int) ^ (w - 1)) = 2 ^ (w - 1) := by
      have h1 := toRep_of_neg (w := w) (v := -(2 : Int) ^ (w - 1)) (by omega) (by omega)
      omega
    have hone : S.toRep w 1 = 1 := by
      have h1 := toRep_of_nonneg (w := w) (v := 1) (by omega) (by omega)
      omega
    have hshl : S.shlChecked w 1 ((w - 1 : Nat) : Int) = some (-(2 : Int) ^ (w - 1)) := by
      unfold S.shlChecked
      rw [if_pos ⟨by positivity, by exact_mod_cast (show w - 1 < w by omega)⟩]
      have ht : ((w - 1 : Nat) : Int).toNat = w - 1 := by omega
      rw [hone, ht, one_mul, Nat.mod_eq_of_lt (by omega), ofRep_of_ge (Nat.le_refl _)]
      simp only [Option.some.injEq]
      omega
    unfold S.is_bit_set
    rw [hshl]
    have hfs : S.is_flag_set w v (-(2 : Int) ^ (w - 1)) = false := by
      unfold S.is_flag_set
      simp only [decide_eq_false_iff_not]
      unfold S.land
      rw [hmin, Nat.and_two_pow]
      rcases htb : (S.toRep w v).testBit (w - 1) with _ | _
      · simp only [Bool.toNat_false, Nat.zero_mul]
        rw [ofRep_of_lt (by omega)]
        omega
      · simp only [Bool.toNat_true, Nat.one_mul]
        rw [ofRep_of_ge (Nat.le_refl _)]
        omega
    show some (S.is_flag_set w v (-(2 : Int) ^ (w - 1))) = some false
    rw [hfs]

/-- Witness for C10 on the 16-bit type with both sign bits set. -/
theorem signed_top_bit_witness :
    (S.land 16 (-1) (-2) < 0 ↔ (-1 : Int) < 0 ∧ (-2 : Int) < 0)
    ∧ (S.land 16 (-1) (-2) < 0 → S.is_flag_set 16 (-1) (-2) = false)
    ∧ S.is_bit_set 16 (-1) (16 - 1) = some false :=
  signed_top_bit_spec 16 (-1) (-2) (by decide)
    (by unfold S.InRange; decide) (by unfold S.InRange; decide)

end BitOps
